import Mathlib

/-!
Verification of the Podcast-RAG transcription pipeline's alignment engine,
timestamp utilities, output formatting and batch orchestration, as implemented
in `transcribe_with_speakers.py`, `transcribe.py` and `transcribe_audio.py`.

Python floats are modelled as exact rationals, strings as `String`/`List Char`,
the filesystem as an association list from paths to contents, and the external
ASR/diarization collaborators as `Except`-valued functions supplied as
parameters.
-/

namespace PodcastRag

/-! ### Python primitives -/

/-- Python's built-in `round` (banker's rounding, round-half-to-even),
applied to a real-valued number of seconds modelled as a rational. -/
def pythonRound (q : ℚ) : ℤ :=
  let f : ℤ := ⌊q⌋
  let r : ℚ := q - (f : ℚ)
  if r < 1 / 2 then f
  else if 1 / 2 < r then f + 1
  else if f % 2 = 0 then f else f + 1

/-- Decimal digits of a natural number, most significant first
(the rendering used by Python's `%d` / `str`). Structural recursion on a
fuel argument so that the kernel can evaluate it. -/
def natToDigitsGo : ℕ → ℕ → List Char
  | 0, _ => []
  | fuel + 1, m =>
    if m < 10 then [Nat.digitChar m]
    else natToDigitsGo fuel (m / 10) ++ [Nat.digitChar (m % 10)]

/-- Decimal rendering of a natural number as characters. -/
def natToDigits (n : ℕ) : List Char :=
  natToDigitsGo (n + 1) n

/-- Zero-padding to two digits, Python's `%02d` as used by
`datetime.timedelta.__str__` for minutes and seconds. -/
def pad2 (m : ℕ) : List Char :=
  if m < 10 then '0' :: natToDigits m else natToDigits m

/-- The `H:MM:SS` rendering of a within-day number of seconds, as produced by
`datetime.timedelta.__str__`: unpadded hours, two-digit minutes and seconds. -/
def hmsChars (m : ℕ) : List Char :=
  natToDigits (m / 3600) ++ ':' :: (pad2 (m / 60 % 60) ++ ':' :: pad2 (m % 60))

/-- `str(datetime.timedelta(seconds=n))` for a non-negative whole number of
seconds: a day prefix appears once `n` reaches 86400 seconds. -/
def timedeltaNat (m : ℕ) : List Char :=
  let days := m / 86400
  let secs := m % 86400
  if days = 0 then hmsChars secs
  else
    natToDigits days ++ (" day").data ++ (if days = 1 then [] else ['s']) ++
      (", ").data ++ hmsChars secs

/-- `str(datetime.timedelta(seconds=n))` for a whole number of seconds.
Python normalizes with floor division, so negative totals render as a negative
day count followed by a non-negative `H:MM:SS` part. -/
def timedeltaChars (n : ℤ) : List Char :=
  if 0 ≤ n then timedeltaNat n.toNat
  else
    let days := Int.fdiv n 86400
    let secs := (Int.fmod n 86400).toNat
    '-' :: natToDigits days.natAbs ++ (" day").data ++
      (if days = -1 then [] else ['s']) ++ (", ").data ++ hmsChars secs

/-- `format_timestamp` of `transcribe_with_speakers.py` line 33 and
`transcribe.py` line 90: `str(timedelta(seconds=round(seconds)))`. -/
def format_timestamp (seconds : ℚ) : String :=
  String.mk (timedeltaChars (pythonRound seconds))

/-- Python's `str.split(":")`: split at every colon, keeping empty pieces.
(The result is never empty, so prepending a character to the first piece via
`headD`/`tail` is total.) -/
def splitCols : List Char → List (List Char)
  | [] => [[]]
  | c :: rest =>
    let r := splitCols rest
    if c = ':' then [] :: r else (c :: r.headD []) :: r.tail

/-- Numeric value of a string of decimal digits (the effect of Python's
`float(...)` on the all-digit fields produced by `format_timestamp`). -/
def parseDigits (l : List Char) : ℕ :=
  l.foldl (fun n c => n * 10 + (c.toNat - '0'.toNat)) 0

/-- `float(s.split(":")[-1])` of `transcribe.py` lines 154-155: the numeric
value of the last colon-separated field of a formatted timestamp. -/
def pyFloatLastColon (s : String) : ℚ :=
  (parseDigits ((splitCols s.data).getLastD []) : ℚ)

/-- An independent reading of an `H:MM:SS` string back to total seconds,
used to state that `format_timestamp` faithfully encodes its input. -/
def parseHMS (s : String) : ℕ :=
  match splitCols s.data with
  | [h, m, sec] => 3600 * parseDigits h + 60 * parseDigits m + parseDigits sec
  | _ => 0

/-- Whether a string has the shape `H:MM:SS` / `HH:MM:SS` of a duration below
one day: three colon-separated fields, all digits, the hour unpadded with one
or two digits (no leading zero on a two-digit hour), minutes and seconds
exactly two digits. -/
def isHMSshape (s : String) : Bool :=
  match splitCols s.data with
  | [h, m, sec] =>
    (h.length = 1 || (h.length = 2 && h.headD '0' ≠ '0')) &&
      h.all Char.isDigit && m.length = 2 && m.all Char.isDigit &&
      sec.length = 2 && sec.all Char.isDigit
  | _ => false

/-! ### Data model (spec §3) -/

/-- An ASR segment: `{start, end, text}` (seconds as exact rationals). -/
structure Segment where
  start : ℚ
  «end» : ℚ
  text : String
deriving DecidableEq

/-- A diarization turn: `{start, end, speaker}`. -/
structure Turn where
  start : ℚ
  «end» : ℚ
  speaker : String
deriving DecidableEq

/-! ### Alignment engine (`transcribe_with_speakers.py` lines 96-123) -/

/-- The engine's inline overlap expression,
`min(s["end"], segment_end) - max(s["start"], segment_start)`
(`transcribe_with_speakers.py` line 112), generalized to the four interval
endpoints. Note: no clamping to `0`. -/
def ov (a_start a_end b_start b_end : ℚ) : ℚ :=
  min a_end b_end - max a_start b_start

/-- The spec's overlap utility (§4.1):
`max(0, min(a_end,b_end) - max(a_start,b_start))`. Stated from the spec's
words, for comparison against the engine's inline expression `ov`. -/
def specOverlap (a_start a_end b_start b_end : ℚ) : ℚ :=
  max 0 (min a_end b_end - max a_start b_start)

/-- The key by which the engine ranks a candidate turn `s` against the
current segment (`transcribe_with_speakers.py` line 112). -/
def overlapKey (segment : Segment) (s : Turn) : ℚ :=
  ov s.start s.«end» segment.start segment.«end»

/-- The spec-side overlap of a segment with a turn, clamped at zero. -/
def overlap (segment : Segment) (t : Turn) : ℚ :=
  specOverlap t.start t.«end» segment.start segment.«end»

/-- Python's `max(iterable, key=...)`: scans left to right keeping the current
best and replacing it only on a strictly greater key, so the first maximal
element wins ties; `none` on an empty iterable (Python raises there). -/
def pyMaxBy {α : Type} (key : α → ℚ) : List α → Option α
  | [] => none
  | x :: xs => some (xs.foldl (fun best y => if key best < key y then y else best) x)

/-- Structural characterization of Python's first-maximum-wins `max`,
used to reason about `pyMaxBy`. -/
def firstMaxBy {α : Type} (key : α → ℚ) : List α → Option α
  | [] => none
  | x :: xs =>
    match firstMaxBy key xs with
    | none => some x
    | some y => if key y ≤ key x then some x else some y

/-- The condition under which a turn enters `overlapping_speakers`
(`transcribe_with_speakers.py` line 105):
`s["start"] <= segment_end and s["end"] >= segment_start`. -/
def touchesSeg (segment : Segment) (s : Turn) : Bool :=
  decide (s.start ≤ segment.«end») && decide (segment.start ≤ s.«end»)

/-- Speaker chosen for one segment (`transcribe_with_speakers.py` lines
102-116): filter the turns down to `overlapping_speakers`, take the one of
maximum (unclamped) overlap, or the sentinel `"UNKNOWN"` if none qualifies. -/
def speakerFor (speaker_segments : List Turn) (segment : Segment) : String :=
  let overlapping_speakers := speaker_segments.filter (touchesSeg segment)
  match pyMaxBy (overlapKey segment) overlapping_speakers with
  | some best_speaker => best_speaker.speaker
  | none => "UNKNOWN"

/-- A record of the simple (no-diarization) transcript
(`transcribe_with_speakers.py` lines 67-74), as an ordered key/value list
mirroring the Python dict literal: no `speaker` key. -/
def simpleRecord (segment : Segment) : List (String × String) :=
  [("start", format_timestamp segment.start),
   ("end", format_timestamp segment.«end»),
   ("text", segment.text.trim)]

/-- A record of the speaker-attributed transcript
(`transcribe_with_speakers.py` lines 118-123). -/
def speakerRecord (speaker_segments : List Turn) (segment : Segment) :
    List (String × String) :=
  [("start", format_timestamp segment.start),
   ("end", format_timestamp segment.«end»),
   ("speaker", speakerFor speaker_segments segment),
   ("text", segment.text.trim)]

/-- The merge loop of `transcribe_with_speakers.py` lines 96-123: one output
record appended per input segment, in order. -/
def mergeTranscript (segments : List Segment) (speaker_segments : List Turn) :
    List (List (String × String)) :=
  segments.map (speakerRecord speaker_segments)

/-! ### The `transcribe.py` variant's records and speaker matching -/

/-- A `transcribe.py` transcript record (lines 130-135): unlike the
`transcribe_with_speakers.py` simple records, it always carries a `speaker`
field, defaulted to `"Unknown"`. -/
structure TRecord where
  start : String
  «end» : String
  text : String
  speaker : String
deriving DecidableEq

/-- Record construction of `transcribe.py` lines 130-136. -/
def tRecordOfSegment (segment : Segment) : TRecord :=
  { start := format_timestamp segment.start
    «end» := format_timestamp segment.«end»
    text := segment.text.trim
    speaker := "Unknown" }

/-- The serialized key order of a `TRecord`, mirroring the dict literal of
`transcribe.py` lines 130-135. -/
def tRecordPairs (r : TRecord) : List (String × String) :=
  [("start", r.start), ("end", r.«end»), ("text", r.text), ("speaker", r.speaker)]

/-- `transcribe.py` line 154: the start endpoint used for speaker matching,
`float(segment["start"].split(":")[-1])`. -/
def segmentStartTime (r : TRecord) : ℚ :=
  pyFloatLastColon r.start

/-- `transcribe.py` line 155: the end endpoint used for speaker matching. -/
def segmentEndTime (r : TRecord) : ℚ :=
  pyFloatLastColon r.«end»

/-- `speakers.count(x)` for the speaker-label list. -/
def countEq (l : List String) (x : String) : ℚ :=
  ((l.filter (fun y => y = x)).length : ℚ)

/-- Speaker matching of `transcribe.py` lines 153-165: collect the labels of
turns that touch the (mis-parsed) `[start_time, end_time]` window, then take
the most common label. Python computes `max(set(speakers), key=speakers.count)`
whose tie order depends on unspecified set iteration; this model scans the
distinct labels in first-occurrence order, which agrees with Python whenever
the most common label is unique. -/
def matchSpeakerT (diarization : List Turn) (r : TRecord) : TRecord :=
  let start_time := segmentStartTime r
  let end_time := segmentEndTime r
  let speakers := (diarization.filter (fun turn =>
    decide (turn.start ≤ end_time) && decide (start_time ≤ turn.«end»))).map Turn.speaker
  match pyMaxBy (countEq speakers) speakers.eraseDups with
  | some sp => { r with speaker := sp }
  | none => r

/-! ### Filesystem and batch orchestration

The filesystem is an association list from paths to file contents; the
external collaborators are `Except`-valued functions. Runs return the new
filesystem and the number of collaborator (ASR/diarization) invocations. -/

/-- Persisted files: newest write first, looked up by path. -/
abbrev Fs := List (String × String)

/-- `os.path.exists`. -/
def fsExists (fs : Fs) (p : String) : Bool :=
  (fs.lookup p).isSome

/-- Writing (or overwriting) a file. -/
def fsWrite (fs : Fs) (p c : String) : Fs :=
  (p, c) :: fs

/-- `os.path.join` for the single-separator uses in this repository. -/
def pathJoin (d f : String) : String :=
  d ++ "/" ++ f

/-- `os.path.basename`: the part after the last `/`. -/
def basename (p : String) : String :=
  String.mk (p.data.reverse.takeWhile (fun c => c ≠ '/')).reverse

/-- The deterministic artifact name for `(base_name, mode)`:
`{output_dir}/{base_name}_{with_speakers|simple}.json`, computed identically
by the batch loops and by `transcribe_with_speakers.py`'s worker. -/
def expectedArtifact (output_dir : String) (with_diarization : Bool)
    (base_name : String) : String :=
  let output_suffix := if with_diarization then "with_speakers" else "simple"
  pathJoin output_dir (base_name ++ "_" ++ output_suffix ++ ".json")

/-- `os.path.splitext(p)[0]` for ordinary file names: the part before the
last `.`, or the whole name when there is no dot. -/
def splitextBase (p : String) : String :=
  if p.data.contains '.' then
    String.mk (p.data.reverse.dropWhile (fun c => c ≠ '.')).tail.reverse
  else p

/-- Deterministic stand-in for `json.dump` on a list of key/value records
(exact JSON whitespace is immaterial to every claim; only determinism and the
record keys matter). -/
def encodeRecord (r : List (String × String)) : String :=
  "\x7b" ++ String.intercalate ", " (r.map (fun p => "\"" ++ p.1 ++ "\": \"" ++ p.2 ++ "\"")) ++ "\x7d"

/-- The persisted artifact body for a list of records. -/
def encodeRecords (rs : List (List (String × String))) : String :=
  "[" ++ String.intercalate ", " (rs.map encodeRecord) ++ "]"

/-- `transcribe_audio` of `transcribe_with_speakers.py` (lines 37-135):
run ASR, optionally diarize and merge, then write the artifact named
`{base}_{with_speakers|simple}.json` under `output_dir`. Returns the new
filesystem and the number of collaborator invocations. -/
def transcribe_audio_tws (asr : String → Except String (List Segment))
    (diar : String → Except String (List Turn))
    (audio_path output_dir : String) (with_diarization : Bool) (fs : Fs) :
    Except String (Fs × ℕ) := do
  let base_name := splitextBase (basename audio_path)
  let result ← asr audio_path
  let (final_transcript, calls) ←
    if with_diarization = false then
      pure (result.map simpleRecord, 1)
    else do
      let speaker_segments ← diar audio_path
      pure (mergeTranscript result speaker_segments, 2)
  let output_file := expectedArtifact output_dir with_diarization base_name
  pure (fsWrite fs output_file (encodeRecords final_transcript), calls)

/-- One iteration of the batch loop of `transcribe_with_speakers.py` lines
159-174: derive the expected artifact name, skip if it exists, otherwise
invoke the worker. -/
def tws_step (asr : String → Except String (List Segment))
    (diar : String → Except String (List Turn))
    (input_dir output_dir : String) (with_diarization : Bool)
    (st : Fs × ℕ) (audio_file : String) : Except String (Fs × ℕ) := do
  let audio_path := pathJoin input_dir audio_file
  let base_name := splitextBase audio_file
  let output_file := expectedArtifact output_dir with_diarization base_name
  if fsExists st.1 output_file then pure st
  else do
    let (fs', k) ← transcribe_audio_tws asr diar audio_path output_dir with_diarization st.1
    pure (fs', st.2 + k)

/-- `process_audio_folder` of `transcribe_with_speakers.py` lines 137-174:
fold over the (already filtered) audio-file listing, skipping any item whose
output artifact exists. There is no per-item exception handler in the source,
so a collaborator error propagates out of the whole fold. -/
def process_audio_folder_tws (asr : String → Except String (List Segment))
    (diar : String → Except String (List Turn))
    (input_dir output_dir : String) (with_diarization : Bool)
    (audio_files : List String) (fs : Fs) : Except String (Fs × ℕ) :=
  audio_files.foldlM (tws_step asr diar input_dir output_dir with_diarization) (fs, 0)

/-- `transcribe_audio` of `transcribe.py` (lines 94-179): always builds
records carrying a `speaker` field, and always writes to the hard-coded path
`transcripts/{base}.json` — with no mode suffix. -/
def transcribe_audio_t (asr : String → Except String (List Segment))
    (diar : String → Except String (List Turn))
    (audio_path : String) (with_diarization : Bool) (fs : Fs) :
    Except String (Fs × ℕ) := do
  let base_name := splitextBase (basename audio_path)
  let result ← asr audio_path
  let segments := result.map tRecordOfSegment
  let (segments, calls) ←
    if with_diarization then do
      let diarization ← diar audio_path
      pure (segments.map (matchSpeakerT diarization), 2)
    else
      pure (segments, 1)
  let output_file := pathJoin "transcripts" (base_name ++ ".json")
  pure (fsWrite fs output_file (encodeRecords (segments.map tRecordPairs)), calls)

/-- One iteration of the batch loop of `transcribe.py` lines 203-218: the
skip check names `{output_dir}/{base}_{suffix}.json`, the worker invoked on
a miss writes `transcripts/{base}.json`. -/
def t_step (asr : String → Except String (List Segment))
    (diar : String → Except String (List Turn))
    (input_dir output_dir : String) (with_diarization : Bool)
    (st : Fs × ℕ) (audio_file : String) : Except String (Fs × ℕ) := do
  let audio_path := pathJoin input_dir audio_file
  let base_name := splitextBase audio_file
  let output_file := expectedArtifact output_dir with_diarization base_name
  if fsExists st.1 output_file then pure st
  else do
    let (fs', k) ← transcribe_audio_t asr diar audio_path with_diarization st.1
    pure (fs', st.2 + k)

/-- `process_audio_folder` of `transcribe.py` lines 181-218: identical batch
loop to `transcribe_with_speakers.py`, but it delegates to `transcribe.py`'s
`transcribe_audio`, which writes `transcripts/{base}.json` instead of the
checked artifact name. -/
def process_audio_folder_t (asr : String → Except String (List Segment))
    (diar : String → Except String (List Turn))
    (input_dir output_dir : String) (with_diarization : Bool)
    (audio_files : List String) (fs : Fs) : Except String (Fs × ℕ) :=
  audio_files.foldlM (t_step asr diar input_dir output_dir with_diarization) (fs, 0)

/-- `transcribe_audio` of `transcribe_audio.py` lines 8-15: the per-item model
call is wrapped in `try/except`, returning `None` on any error. -/
def transcribe_audio_ta (model : String → Except String String)
    (audio_path : String) : Option String :=
  match model audio_path with
  | .ok result => some result
  | .error _ => none

/-- The batch loop of `transcribe_audio.py`'s `main` (lines 36-55): skip items
with an existing transcript, otherwise transcribe; a `None` result (a caught
error) writes nothing and the loop continues with the next item. -/
def main_ta (model : String → Except String String)
    (audio_files : List String) (fs : Fs) : Fs :=
  audio_files.foldl (fun fs audio_file =>
    let audio_path := pathJoin "audio" audio_file
    let transcript_path := pathJoin "transcripts" (splitextBase audio_file ++ ".txt")
    if fsExists fs transcript_path then fs
    else
      match transcribe_audio_ta model audio_path with
      | some transcript => fsWrite fs transcript_path transcript
      | none => fs) fs

/-! ### Concrete collaborators for closed runs -/

/-- An ASR collaborator producing an empty segment list for every input. -/
def asrNil : String → Except String (List Segment) := fun _ => .ok []

/-- A diarization collaborator producing an empty turn stream. -/
def diarNil : String → Except String (List Turn) := fun _ => .ok []

/-- An ASR collaborator that fails on `audio/a.wav` and succeeds elsewhere. -/
def asrBoom : String → Except String (List Segment) := fun p =>
  if p = "audio/a.wav" then .error "boom" else .ok []

/-! ### Word-level matching (spec §4.2) -/

/-- A word-level timing record nested in a segment. -/
structure Word where
  start : ℚ
  «end» : ℚ
  text : String
deriving DecidableEq

/-- Modelled from the spec: no word-level matcher exists under `src/`; spec
§4.2 assigns a word to a turn by point-containment,
`turn.start <= word.start <= turn.end`. -/
def wordInTurn (t : Turn) (w : Word) : Bool :=
  decide (t.start ≤ w.start) && decide (w.start ≤ t.«end»)

/-- Modelled from the spec: the words assigned to each turn, in turn order;
words contained in no turn appear in no turn's list. -/
def assignWords (turns : List Turn) (words : List Word) :
    List (Turn × List Word) :=
  turns.map (fun t => (t, words.filter (wordInTurn t)))

/-- Modelled from the spec: a turn's reconstructed text, built only from the
words assigned to it. -/
def reconstructText (ws : List Word) : String :=
  String.intercalate " " (ws.map Word.text)

/-- Modelled from the spec: the single configuration flag (§4.2) selecting
between segment-level matching (the engine of
`transcribe_with_speakers.py`) and the word-level variant. -/
def alignWithFlag (word_level : Bool) (segments : List Segment)
    (turns : List Turn) (words : List Word) :
    List (List (String × String)) ⊕ List (Turn × List Word) :=
  if word_level then .inr (assignWords turns words)
  else .inl (mergeTranscript segments turns)

/-! ### Properties of Python's `max(..., key=...)` -/

theorem firstMaxBy_cons {α : Type} (key : α → ℚ) (x : α) (xs : List α) :
    firstMaxBy key (x :: xs) =
      (firstMaxBy key xs).elim (some x)
        (fun y => if key y ≤ key x then some x else some y) := by
  cases h : firstMaxBy key xs with
  | none => simp only [firstMaxBy, h, Option.elim]
  | some y => simp only [firstMaxBy, h, Option.elim]

theorem firstMaxBy_eq_none {α : Type} (key : α → ℚ) :
    ∀ xs : List α, firstMaxBy key xs = none → xs = [] := by
  intro xs h
  cases xs with
  | nil => rfl
  | cons a as =>
    rw [firstMaxBy_cons] at h
    rcases h' : firstMaxBy key as with _ | y <;> rw [h'] at h <;>
      simp only [Option.elim] at h
    · exact Option.noConfusion h
    · split at h <;> exact Option.noConfusion h

theorem foldl_pyMax {α : Type} (key : α → ℚ) (xs : List α) (x : α) :
    xs.foldl (fun best y => if key best < key y then y else best) x =
      (firstMaxBy key xs).elim x (fun y => if key x < key y then y else x) := by
  induction xs generalizing x with
  | nil => rfl
  | cons y ys ih =>
    rw [List.foldl_cons, ih, firstMaxBy_cons]
    rcases hys : firstMaxBy key ys with _ | z
    · simp only [Option.elim]
    · simp only [Option.elim]
      rcases le_or_lt (key z) (key y) with hzy | hzy
      · rw [if_pos hzy]
        simp only [Option.elim]
        split_ifs <;> first | rfl | (exfalso; linarith)
      · rw [if_neg (not_le.mpr hzy)]
        simp only [Option.elim]
        split_ifs <;> first | rfl | (exfalso; linarith)

theorem pyMaxBy_eq_firstMaxBy {α : Type} (key : α → ℚ) (l : List α) :
    pyMaxBy key l = firstMaxBy key l := by
  cases l with
  | nil => rfl
  | cons x xs =>
    simp only [pyMaxBy, foldl_pyMax, firstMaxBy_cons]
    rcases firstMaxBy key xs with _ | y
    · rfl
    · simp only [Option.elim]
      rcases lt_or_le (key x) (key y) with h | h
      · rw [if_pos h, if_neg (not_le.mpr h)]
      · rw [if_neg (not_lt.mpr h), if_pos h]

theorem firstMaxBy_isSome {α : Type} (key : α → ℚ) (x : α) (xs : List α) :
    ∃ m, firstMaxBy key (x :: xs) = some m := by
  rw [firstMaxBy_cons]
  rcases firstMaxBy key xs with _ | y
  · exact ⟨x, rfl⟩
  · simp only [Option.elim]
    rcases le_or_lt (key y) (key x) with h | h
    · exact ⟨x, by rw [if_pos h]⟩
    · exact ⟨y, by rw [if_neg (not_le.mpr h)]⟩

/-- Python's `max` returns the first element attaining the maximum key: the
list splits at the result, everything before it has a strictly smaller key,
everything after a key no larger. -/
theorem firstMaxBy_spec {α : Type} (key : α → ℚ) :
    ∀ (l : List α) (m : α), firstMaxBy key l = some m →
      ∃ l1 l2, l = l1 ++ m :: l2 ∧ (∀ y ∈ l1, key y < key m) ∧
        ∀ y ∈ l2, key y ≤ key m := by
  intro l
  induction l with
  | nil => intro m h; exact Option.noConfusion h
  | cons x xs ih =>
    intro m h
    rw [firstMaxBy_cons] at h
    rcases hxs : firstMaxBy key xs with _ | z <;> rw [hxs] at h <;>
      simp only [Option.elim] at h
    · injection h with h
      subst h
      have hnil := firstMaxBy_eq_none key xs hxs
      subst hnil
      exact ⟨[], [], rfl, by simp, by simp⟩
    · obtain ⟨m1, m2, hdec, hlt, hle⟩ := ih z hxs
      by_cases hzx : key z ≤ key x
      · rw [if_pos hzx] at h
        injection h with h
        subst h
        refine ⟨[], xs, rfl, by simp, ?_⟩
        intro y hy
        rw [hdec] at hy
        rcases List.mem_append.mp hy with hy1 | hy2
        · exact ((hlt y hy1).le.trans hzx)
        · rcases List.mem_cons.mp hy2 with rfl | hy2
          · exact hzx
          · exact (hle y hy2).trans hzx
      · rw [if_neg hzx] at h
        injection h with h
        subst h
        refine ⟨x :: m1, m2, by rw [hdec, List.cons_append], ?_, hle⟩
        intro y hy
        rcases List.mem_cons.mp hy with rfl | hy
        · exact not_le.mp hzx
        · exact hlt y hy

theorem filter_decomp {α : Type} (p : α → Bool) :
    ∀ (l f1 f2 : List α) (x : α), l.filter p = f1 ++ x :: f2 →
      ∃ u1 u2, l = u1 ++ x :: u2 ∧ u1.filter p = f1 ∧ u2.filter p = f2 := by
  intro l
  induction l with
  | nil => intro f1 f2 x h; simp at h
  | cons a as ih =>
    intro f1 f2 x h
    rcases hp : p a with _ | _
    · rw [List.filter_cons_of_neg (by simp [hp])] at h
      obtain ⟨u1, u2, rfl, h1, h2⟩ := ih f1 f2 x h
      exact ⟨a :: u1, u2, rfl, by rw [List.filter_cons_of_neg (by simp [hp]), h1], h2⟩
    · rw [List.filter_cons_of_pos hp] at h
      cases f1 with
      | nil =>
        simp only [List.nil_append] at h
        injection h with hax h2
        subst hax
        exact ⟨[], as, rfl, by simp, h2⟩
      | cons b f1' =>
        simp only [List.cons_append] at h
        injection h with hab h'
        obtain ⟨u1, u2, rfl, h1, h2⟩ := ih f1' f2 x h'
        exact ⟨a :: u1, u2, rfl, by rw [List.filter_cons_of_pos hp, h1, hab], h2⟩

/-! ### Engine lemmas -/

theorem touchesSeg_iff (segment : Segment) (t : Turn) :
    touchesSeg segment t = true ↔
      t.start ≤ segment.«end» ∧ segment.start ≤ t.«end» := by
  simp [touchesSeg]

theorem overlap_def (segment : Segment) (t : Turn) :
    overlap segment t = max 0 (overlapKey segment t) := rfl

theorem overlapKey_pos_touches (segment : Segment) (t : Turn)
    (h : 0 < overlapKey segment t) : touchesSeg segment t = true := by
  simp only [overlapKey, ov] at h
  have h1 : min t.«end» segment.«end» ≤ segment.«end» := min_le_right _ _
  have h2 : min t.«end» segment.«end» ≤ t.«end» := min_le_left _ _
  have h3 : t.start ≤ max t.start segment.start := le_max_left _ _
  have h4 : segment.start ≤ max t.start segment.start := le_max_right _ _
  rw [touchesSeg_iff]
  constructor <;> linarith

theorem not_touches_key_neg (segment : Segment) (t : Turn)
    (h : touchesSeg segment t = false) : overlapKey segment t < 0 := by
  have h' : ¬(t.start ≤ segment.«end» ∧ segment.start ≤ t.«end») := by
    rw [← touchesSeg_iff, h]; simp
  simp only [overlapKey, ov]
  have h1 : min t.«end» segment.«end» ≤ segment.«end» := min_le_right _ _
  have h2 : min t.«end» segment.«end» ≤ t.«end» := min_le_left _ _
  have h3 : t.start ≤ max t.start segment.start := le_max_left _ _
  have h4 : segment.start ≤ max t.start segment.start := le_max_right _ _
  rcases not_and_or.mp h' with h5 | h5 <;> push_neg at h5 <;> linarith

theorem key_le_of_mem_filter (segment : Segment) (turns : List Turn)
    (best : Turn) (f1 f2 : List Turn)
    (hdec : turns.filter (touchesSeg segment) = f1 ++ best :: f2)
    (hflt : ∀ y ∈ f1, overlapKey segment y < overlapKey segment best)
    (hfle : ∀ y ∈ f2, overlapKey segment y ≤ overlapKey segment best) :
    ∀ y ∈ turns.filter (touchesSeg segment),
      overlapKey segment y ≤ overlapKey segment best := by
  intro y hy
  rw [hdec] at hy
  rcases List.mem_append.mp hy with hy1 | hy2
  · exact (hflt y hy1).le
  · rcases List.mem_cons.mp hy2 with rfl | hy2
    · exact le_rfl
    · exact hfle y hy2

/-- Claim C1 (amended): whenever some turn has positive overlap with the
segment, the engine selects the turn of maximum clamped overlap, breaking
ties in favour of the first turn in input iteration order, and the match is
deterministic. (As stated, the claim fails when every overlap is zero —
see the counterexample.) -/
theorem speakerFor_max_overlap (segment : Segment) (turns : List Turn)
    (h : ∃ t ∈ turns, 0 < overlap segment t) :
    (∃ l1 best l2, turns = l1 ++ best :: l2 ∧
      speakerFor turns segment = best.speaker ∧
      (∀ t ∈ l1, overlap segment t < overlap segment best) ∧
      (∀ t ∈ turns, overlap segment t ≤ overlap segment best)) ∧
    speakerFor turns segment = speakerFor turns segment := by
  refine ⟨?_, rfl⟩
  obtain ⟨t0, ht0, hpos⟩ := h
  have hk0 : 0 < overlapKey segment t0 := by
    rw [overlap_def] at hpos
    rcases lt_max_iff.mp hpos with h' | h'
    · exact absurd h' (lt_irrefl 0)
    · exact h'
  have htouch := overlapKey_pos_touches _ _ hk0
  have ht0F : t0 ∈ turns.filter (touchesSeg segment) :=
    List.mem_filter.mpr ⟨ht0, htouch⟩
  obtain ⟨x, xs, hF⟩ : ∃ x xs, turns.filter (touchesSeg segment) = x :: xs := by
    cases hF : turns.filter (touchesSeg segment) with
    | nil => rw [hF] at ht0F; cases ht0F
    | cons x xs => exact ⟨x, xs, rfl⟩
  obtain ⟨best, hbest⟩ := firstMaxBy_isSome (overlapKey segment) x xs
  have hbestF : firstMaxBy (overlapKey segment)
      (turns.filter (touchesSeg segment)) = some best := by rw [hF]; exact hbest
  have hspeaker : speakerFor turns segment = best.speaker := by
    simp only [speakerFor, pyMaxBy_eq_firstMaxBy, hbestF]
  obtain ⟨f1, f2, hFdec, hflt, hfle⟩ := firstMaxBy_spec _ _ _ hbestF
  obtain ⟨u1, u2, hturns, hu1, hu2⟩ := filter_decomp _ turns f1 f2 best hFdec
  have hallle := key_le_of_mem_filter segment turns best f1 f2 hFdec hflt hfle
  have hkbest_pos : 0 < overlapKey segment best :=
    lt_of_lt_of_le hk0 (hallle t0 ht0F)
  have hoverlap_best : overlap segment best = overlapKey segment best :=
    max_eq_right hkbest_pos.le
  refine ⟨u1, best, u2, hturns, hspeaker, ?_, ?_⟩
  · intro t ht
    rcases htt : touchesSeg segment t with _ | _
    · have hneg := not_touches_key_neg _ _ htt
      rw [overlap_def, max_eq_left hneg.le, hoverlap_best]
      exact hkbest_pos
    · have htf1 : t ∈ f1 := by rw [← hu1]; exact List.mem_filter.mpr ⟨ht, htt⟩
      rw [overlap_def, hoverlap_best]
      exact max_lt_iff.mpr ⟨hkbest_pos, hflt t htf1⟩
  · intro t ht
    rcases htt : touchesSeg segment t with _ | _
    · have hneg := not_touches_key_neg _ _ htt
      rw [overlap_def, max_eq_left hneg.le, hoverlap_best]
      exact hkbest_pos.le
    · have htF : t ∈ turns.filter (touchesSeg segment) :=
        List.mem_filter.mpr ⟨ht, htt⟩
      rw [overlap_def, overlap_def]
      exact max_le_max le_rfl (hallle t htF)

/-- Claim C1 witness at the spec's own tie-break example: segment `[0,10]`,
turns `A:[0,5]`, `B:[5,10]`. -/
theorem speakerFor_max_overlap_witness :
    (∃ t ∈ [Turn.mk 0 5 "A", Turn.mk 5 10 "B"],
        0 < overlap (Segment.mk 0 10 "hello") t) ∧
    ((∃ l1 best l2, [Turn.mk 0 5 "A", Turn.mk 5 10 "B"] = l1 ++ best :: l2 ∧
      speakerFor [Turn.mk 0 5 "A", Turn.mk 5 10 "B"] (Segment.mk 0 10 "hello")
        = best.speaker ∧
      (∀ t ∈ l1, overlap (Segment.mk 0 10 "hello") t
          < overlap (Segment.mk 0 10 "hello") best) ∧
      (∀ t ∈ [Turn.mk 0 5 "A", Turn.mk 5 10 "B"],
        overlap (Segment.mk 0 10 "hello") t
          ≤ overlap (Segment.mk 0 10 "hello") best)) ∧
     speakerFor [Turn.mk 0 5 "A", Turn.mk 5 10 "B"] (Segment.mk 0 10 "hello")
       = speakerFor [Turn.mk 0 5 "A", Turn.mk 5 10 "B"]
           (Segment.mk 0 10 "hello")) := by
  have hpos : ∃ t ∈ [Turn.mk 0 5 "A", Turn.mk 5 10 "B"],
      0 < overlap (Segment.mk 0 10 "hello") t := by
    refine ⟨Turn.mk 0 5 "A", by simp, ?_⟩
    norm_num [overlap, specOverlap]
  exact ⟨hpos, speakerFor_max_overlap _ _ hpos⟩

/-- Claim C1 counterexample: with the single turn `A:[5,6]` and segment
`[0,1]`, every turn (here `A`) has the maximum overlap `0`, so the claim
as stated assigns speaker `"A"`, but the engine yields `"UNKNOWN"`: the
max-overlap rule does not extend to the all-zero case. -/
theorem speakerFor_all_zero_counterexample :
    pyMaxBy (overlap (Segment.mk 0 1 "x")) [Turn.mk 5 6 "A"]
        = some (Turn.mk 5 6 "A") ∧
    overlap (Segment.mk 0 1 "x") (Turn.mk 5 6 "A") = 0 ∧
    speakerFor [Turn.mk 5 6 "A"] (Segment.mk 0 1 "x") = "UNKNOWN" ∧
    "UNKNOWN" ≠ (Turn.mk 5 6 "A").speaker := by
  refine ⟨rfl, by norm_num [overlap, specOverlap], ?_, by decide⟩
  norm_num [speakerFor, touchesSeg, pyMaxBy, List.filter]

/-- Claim C2 (amended): the engine yields `"UNKNOWN"` exactly for the
segments that no turn touches under the filter condition
`t.start <= s.end and t.end >= s.start` — in particular for an empty turn
stream — and otherwise returns the label of one of the touching turns; a
turn of overlap zero that merely touches the segment still contributes its
label. -/
theorem speakerFor_unknown_conditions (segment : Segment) (turns : List Turn) :
    (turns = [] → speakerFor turns segment = "UNKNOWN") ∧
    ((∀ t ∈ turns, ¬(t.start ≤ segment.«end» ∧ segment.start ≤ t.«end»)) →
      speakerFor turns segment = "UNKNOWN") ∧
    ((∃ t ∈ turns, t.start ≤ segment.«end» ∧ segment.start ≤ t.«end») →
      ∃ t ∈ turns, (t.start ≤ segment.«end» ∧ segment.start ≤ t.«end») ∧
        speakerFor turns segment = t.speaker) := by
  refine ⟨?_, ?_, ?_⟩
  · rintro rfl; rfl
  · intro h
    have hnil : turns.filter (touchesSeg segment) = [] := by
      rw [List.filter_eq_nil_iff]
      intro t ht
      rw [touchesSeg_iff]
      exact h t ht
    simp only [speakerFor, hnil, pyMaxBy]
  · rintro ⟨t0, ht0, htc⟩
    have ht0F : t0 ∈ turns.filter (touchesSeg segment) :=
      List.mem_filter.mpr ⟨ht0, (touchesSeg_iff _ _).mpr htc⟩
    obtain ⟨x, xs, hF⟩ : ∃ x xs, turns.filter (touchesSeg segment) = x :: xs := by
      cases hF : turns.filter (touchesSeg segment) with
      | nil => rw [hF] at ht0F; cases ht0F
      | cons x xs => exact ⟨x, xs, rfl⟩
    obtain ⟨best, hbest⟩ := firstMaxBy_isSome (overlapKey segment) x xs
    have hbestF : firstMaxBy (overlapKey segment)
        (turns.filter (touchesSeg segment)) = some best := by rw [hF]; exact hbest
    have hbmem : best ∈ turns.filter (touchesSeg segment) := by
      obtain ⟨f1, f2, hdec, -, -⟩ := firstMaxBy_spec _ _ _ hbestF
      rw [hdec]
      exact List.mem_append.mpr (Or.inr (List.mem_cons_self _ _))
    refine ⟨best, (List.mem_filter.mp hbmem).1,
      (touchesSeg_iff _ _).mp (List.mem_filter.mp hbmem).2, ?_⟩
    simp only [speakerFor, pyMaxBy_eq_firstMaxBy, hbestF]

/-- Claim C2 witness: the empty turn stream and an all-turns-miss stream both
yield `"UNKNOWN"`, and a touching stream yields a turn's label. -/
theorem speakerFor_unknown_conditions_witness :
    speakerFor [] (Segment.mk 0 1 "x") = "UNKNOWN" ∧
    speakerFor [Turn.mk 5 6 "A"] (Segment.mk 0 1 "x") = "UNKNOWN" ∧
    ∃ t ∈ [Turn.mk 0 2 "B"], (t.start ≤ (Segment.mk 0 1 "x").«end» ∧
        (Segment.mk 0 1 "x").start ≤ t.«end») ∧
      speakerFor [Turn.mk 0 2 "B"] (Segment.mk 0 1 "x") = t.speaker := by
  refine ⟨(speakerFor_unknown_conditions (Segment.mk 0 1 "x") []).1 rfl,
    (speakerFor_unknown_conditions (Segment.mk 0 1 "x") [Turn.mk 5 6 "A"]).2.1 ?_,
    (speakerFor_unknown_conditions (Segment.mk 0 1 "x") [Turn.mk 0 2 "B"]).2.2 ?_⟩
  · intro t ht
    simp only [List.mem_singleton] at ht
    subst ht
    intro hc
    norm_num at hc
  · exact ⟨Turn.mk 0 2 "B", by simp, by norm_num⟩

/-- Claim C2 counterexample: the turn `A:[1,2]` has overlap `0` with segment
`[0,1]` (they only touch), yet the engine assigns `"A"`, not `"UNKNOWN"`:
zero overlap alone does not force the sentinel. -/
theorem speakerFor_touching_counterexample :
    overlap (Segment.mk 0 1 "x") (Turn.mk 1 2 "A") = 0 ∧
    speakerFor [Turn.mk 1 2 "A"] (Segment.mk 0 1 "x") = "A" ∧
    ("A" : String) ≠ "UNKNOWN" := by
  refine ⟨by norm_num [overlap, specOverlap], ?_, by decide⟩
  norm_num [speakerFor, touchesSeg, pyMaxBy, List.filter]

/-! ### Output-shape and overlap-utility claims -/

/-- Claim C5: the merge produces exactly one attributed record per input
segment, in the same order — the i-th output is built from the i-th input
segment. -/
theorem mergeTranscript_length_order (segments : List Segment)
    (speaker_segments : List Turn) :
    (mergeTranscript segments speaker_segments).length = segments.length ∧
    ∀ i : ℕ, (mergeTranscript segments speaker_segments)[i]? =
      (segments[i]?).map (speakerRecord speaker_segments) := by
  refine ⟨List.length_map _ _, fun i => ?_⟩
  simp [mergeTranscript]

/-- Claim C6 counterexample: the engine's inline overlap expression is not
the clamped `max(0, ...)` formula: on the strictly disjoint intervals
`[0,1]` and `[5,6]` it evaluates to `-4`, not `0`. -/
theorem ov_unclamped_counterexample :
    ov 0 1 5 6 = -4 ∧ specOverlap 0 1 5 6 = 0 ∧ ((-4 : ℚ) ≠ 0) := by
  refine ⟨by norm_num [ov], by norm_num [specOverlap], by norm_num⟩

/-- Claim C6 (amended): the engine's inline overlap expression
`min(a_end,b_end) - max(a_start,b_start)` is symmetric in the two intervals;
it equals the spec's clamped formula on every pair satisfying the pre-filter
condition under which the engine evaluates it; for well-formed intervals that
touch at a single point it is exactly `0`; and for strictly disjoint
intervals it is strictly negative — not `0`, since the code omits the
`max(0, ...)` clamp. -/
theorem ov_properties (a_s a_e b_s b_e : ℚ) :
    (ov a_s a_e b_s b_e = ov b_s b_e a_s a_e) ∧
    (a_s ≤ a_e → b_s ≤ b_e → b_s ≤ a_e → a_s ≤ b_e →
      ov a_s a_e b_s b_e = specOverlap a_s a_e b_s b_e) ∧
    (a_s ≤ a_e → b_s ≤ b_e → a_e = b_s → ov a_s a_e b_s b_e = 0) ∧
    (a_e < b_s → ov a_s a_e b_s b_e < 0) := by
  refine ⟨by simp [ov, min_comm, max_comm], ?_, ?_, ?_⟩
  · intro ha hb hba hab
    have hmm : max a_s b_s ≤ min a_e b_e :=
      max_le (le_min ha hab) (le_min hba hb)
    rw [ov, specOverlap, max_eq_right (sub_nonneg.mpr hmm)]
  · intro ha hb he
    subst he
    rw [ov, min_eq_left (le_trans le_rfl hb), max_eq_right ha, sub_self]
  · intro hlt
    have h1 : min a_e b_e ≤ a_e := min_le_left _ _
    have h2 : b_s ≤ max a_s b_s := le_max_right _ _
    simp only [ov]
    linarith

/-- Claim C6 witness: the conditional conclusions of `ov_properties` at
concrete endpoints — touching intervals give `0`, disjoint ones a negative
value, filtered pairs the clamped formula. -/
theorem ov_properties_witness :
    ov 0 1 1 2 = 0 ∧ ov 0 1 5 6 < 0 ∧
    ov 0 10 5 20 = specOverlap 0 10 5 20 := by
  refine ⟨(ov_properties 0 1 1 2).2.2.1 (by norm_num) (by norm_num) rfl,
    (ov_properties 0 1 5 6).2.2.2 (by norm_num),
    (ov_properties 0 10 5 20).2.1 (by norm_num) (by norm_num)
      (by norm_num) (by norm_num)⟩

/-- Claim C8 counterexample: a record built by `transcribe.py` — including in
simple mode, where `transcribe_audio_t` persists `segments.map
tRecordOfSegment` unchanged — always carries a `speaker` key. -/
theorem tRecord_speaker_key_counterexample :
    ((tRecordPairs (tRecordOfSegment (Segment.mk 0 1 "hi"))).map Prod.fst
      = ["start", "end", "text", "speaker"]) ∧
    "speaker" ∈ (tRecordPairs (tRecordOfSegment (Segment.mk 0 1 "hi"))).map
      Prod.fst := by
  exact ⟨rfl, by decide⟩

/-- Claim C8 (amended): in `transcribe_with_speakers.py` the simple-mode
records contain exactly the keys `start`, `end`, `text`, with no `speaker`
key; but in `transcribe.py` every persisted record — the simple mode
included — carries a fourth `speaker` key, defaulted to `"Unknown"`. -/
theorem simple_record_keys (segment : Segment) :
    ((simpleRecord segment).map Prod.fst = ["start", "end", "text"]) ∧
    ("speaker" ∉ (simpleRecord segment).map Prod.fst) ∧
    ((tRecordPairs (tRecordOfSegment segment)).map Prod.fst
      = ["start", "end", "text", "speaker"]) ∧
    (tRecordOfSegment segment).speaker = "Unknown" := by
  have h1 : (simpleRecord segment).map Prod.fst = ["start", "end", "text"] := rfl
  exact ⟨h1, by rw [h1]; decide, rfl, rfl⟩

/-! ### Batch error handling (claim C4) -/

/-- Claim C4 counterexample: an ASR failure on the first item makes the whole
`process_audio_folder` batch of `transcribe_with_speakers.py` abort — the
error escapes the per-item loop, and `b.wav` is never processed. -/
theorem batch_abort_counterexample :
    process_audio_folder_tws asrBoom diarNil "audio" "out" false
      ["a.wav", "b.wav"] [] = .error "boom" := by
  rfl

/-- Claim C4 (amended): `transcribe_audio.py` does catch collaborator errors
at the per-item boundary — its `transcribe_audio` returns `None` and `main`
moves on, so a failing item contributes nothing and the rest of the batch is
processed exactly as if the item were absent; the `process_audio_folder`
orchestrators of `transcribe.py`/`transcribe_with_speakers.py`, however,
have no per-item handler and a collaborator error aborts the batch. -/
theorem main_ta_isolates_failures (model : String → Except String String)
    (e f : String) (l1 l2 : List String) (fs : Fs)
    (h : model (pathJoin "audio" f) = .error e) :
    main_ta model (l1 ++ f :: l2) fs = main_ta model (l1 ++ l2) fs := by
  induction l1 generalizing fs with
  | nil =>
    simp only [List.nil_append, main_ta, List.foldl_cons, transcribe_audio_ta,
      h, ite_self]
  | cons a l1 ih =>
    simp only [List.cons_append, main_ta, List.foldl_cons] at ih ⊢
    exact ih _

/-- Claim C4 witness: a model failing on `a.wav` leaves the batch over
`["b.wav", "a.wav"]` with the same outcome as the batch over `["b.wav"]`. -/
theorem main_ta_isolates_failures_witness :
    (fun _ : String => (Except.error "x" : Except String String))
      (pathJoin "audio" "a.wav") = Except.error "x" ∧
    main_ta (fun _ => Except.error "x") (["b.wav"] ++ "a.wav" :: []) [] =
      main_ta (fun _ => Except.error "x") (["b.wav"] ++ []) [] :=
  ⟨rfl, main_ta_isolates_failures (fun _ => Except.error "x") "x" "a.wav"
    ["b.wav"] [] [] rfl⟩

/-! ### Batch idempotency (claim C3) -/

/-- Claim C3: the failing input. `transcribe.py`'s worker writes
`transcripts/a.json` while the orchestrator's skip check tests
`transcripts/a_simple.json`; the checked artifact never appears, so a second
run over the same input and mode re-invokes the ASR collaborator (one
invocation, not the promised zero) and re-writes the artifact. -/
theorem transcribe_py_second_run_reinvokes :
    ((process_audio_folder_t asrNil diarNil "audio" "transcripts" false
        ["a.wav"] []).bind (fun st =>
      process_audio_folder_t asrNil diarNil "audio" "transcripts" false
        ["a.wav"] st.1)).map Prod.snd = .ok 1 ∧
    (process_audio_folder_t asrNil diarNil "audio" "transcripts" false
        ["a.wav"] []).map (fun st =>
          (fsExists st.1 "transcripts/a_simple.json",
           fsExists st.1 "transcripts/a.json")) = .ok (false, true) ∧
    (1 : ℕ) ≠ 0 := by
  refine ⟨rfl, rfl, by decide⟩

/-! ### Word-level matching (claim C9, modelled from the spec) -/

/-- Claim C9: under the word-level mode selected by the configuration flag,
a word is assigned to a turn exactly when `turn.start ≤ word.start ≤
turn.end`, and a word contained in no turn is omitted from every turn's
assigned words — hence from every reconstructed text, which is built only
from the assigned words. -/
theorem word_level_matching (turns : List Turn) (words : List Word)
    (segments : List Segment) (w : Word) :
    (alignWithFlag true segments turns words = .inr (assignWords turns words)) ∧
    (alignWithFlag false segments turns words
      = .inl (mergeTranscript segments turns)) ∧
    (∀ t ws, (t, ws) ∈ assignWords turns words →
      ∀ w' : Word, (w' ∈ ws ↔ w' ∈ words ∧
        (t.start ≤ w'.start ∧ w'.start ≤ t.«end»))) ∧
    ((∀ t ∈ turns, ¬(t.start ≤ w.start ∧ w.start ≤ t.«end»)) →
      ∀ t ws, (t, ws) ∈ assignWords turns words → w ∉ ws) := by
  have hmem : ∀ t ws, (t, ws) ∈ assignWords turns words →
      t ∈ turns ∧ ws = words.filter (wordInTurn t) := by
    intro t ws hws
    simp only [assignWords, List.mem_map] at hws
    obtain ⟨t', ht', heq⟩ := hws
    injection heq with h1 h2
    subst h1
    exact ⟨ht', h2.symm⟩
  refine ⟨rfl, rfl, ?_, ?_⟩
  · intro t ws hws w'
    obtain ⟨ht, rfl⟩ := hmem t ws hws
    rw [List.mem_filter]
    simp [wordInTurn]
  · intro h t ws hws hwmem
    obtain ⟨ht, rfl⟩ := hmem t ws hws
    rw [List.mem_filter] at hwmem
    have := hwmem.2
    simp only [wordInTurn, Bool.and_eq_true, decide_eq_true_eq] at this
    exact h t ht this

/-- Claim C9 witness: a single turn `[0,2]` and two words starting at `1`
and at `5`: the first is assigned, the second is contained in no turn and is
omitted. -/
theorem word_level_matching_witness :
    (Turn.mk 0 2 "S", [Word.mk 1 2 "yes"]) ∈
      assignWords [Turn.mk 0 2 "S"] [Word.mk 1 2 "yes", Word.mk 5 6 "no"] ∧
    Word.mk 5 6 "no" ∉ [Word.mk 1 2 "yes"] ∧
    reconstructText [Word.mk 1 2 "yes"] = "yes" := by
  have h := word_level_matching [Turn.mk 0 2 "S"]
    [Word.mk 1 2 "yes", Word.mk 5 6 "no"] [] (Word.mk 5 6 "no")
  have hassign : assignWords [Turn.mk 0 2 "S"]
      [Word.mk 1 2 "yes", Word.mk 5 6 "no"]
      = [(Turn.mk 0 2 "S", [Word.mk 1 2 "yes"])] := by
    norm_num [assignWords, wordInTurn, List.filter]
  have hmem : (Turn.mk 0 2 "S", [Word.mk 1 2 "yes"]) ∈
      assignWords [Turn.mk 0 2 "S"] [Word.mk 1 2 "yes", Word.mk 5 6 "no"] := by
    rw [hassign]; exact List.mem_singleton.mpr rfl
  refine ⟨hmem, ?_, rfl⟩
  intro hcontra
  have := (h.2.2.1 _ _ hmem (Word.mk 5 6 "no")).mp hcontra
  have h5 : ¬((5 : ℚ) ≤ 2) := by norm_num
  exact h5 this.2.2

/-! ### Structure of the formatted timestamps -/

theorem splitCols_ne_nil : ∀ l : List Char, splitCols l ≠ [] := by
  intro l
  cases l with
  | nil => simp [splitCols]
  | cons c rest =>
    simp only [splitCols]
    split_ifs <;> simp

theorem splitCols_no_colon : ∀ l : List Char, ':' ∉ l → splitCols l = [l] := by
  intro l
  induction l with
  | nil => intro _; rfl
  | cons c rest ih =>
    intro h
    have hc : c ≠ ':' := fun hc => h (hc ▸ List.mem_cons_self _ _)
    have hrest : ':' ∉ rest := fun hr => h (List.mem_cons_of_mem _ hr)
    simp only [splitCols, ih hrest, if_neg hc, List.headD_cons, List.tail_cons]

theorem splitCols_append : ∀ (a rest : List Char), ':' ∉ a →
    splitCols (a ++ ':' :: rest) = a :: splitCols rest := by
  intro a
  induction a with
  | nil =>
    intro rest _
    simp only [List.nil_append, splitCols, if_pos rfl, if_true]
  | cons c a ih =>
    intro rest h
    have hc : c ≠ ':' := fun hc => h (hc ▸ List.mem_cons_self _ _)
    have ha : ':' ∉ a := fun hr => h (List.mem_cons_of_mem _ hr)
    rw [List.cons_append]
    simp only [splitCols, ih rest ha, if_neg hc, List.headD_cons, List.tail_cons]

theorem getLastD_tail {α : Type} (l : List α) (a b : α) (h : l ≠ []) :
    l.getLastD a = l.getLastD b := by
  cases l with
  | nil => exact absurd rfl h
  | cons x xs => rw [List.getLastD_cons, List.getLastD_cons]

theorem splitCols_two_of_colon : ∀ l : List Char, ':' ∈ l →
    2 ≤ (splitCols l).length := by
  intro l
  induction l with
  | nil => intro h; cases h
  | cons c rest ih =>
    intro h
    simp only [splitCols]
    by_cases hc : c = ':'
    · rw [if_pos hc]
      have h1 : 0 < (splitCols rest).length :=
        List.length_pos.mpr (splitCols_ne_nil rest)
      simp only [List.length_cons]
      omega
    · rw [if_neg hc]
      rcases List.mem_cons.mp h with h' | h'
      · exact absurd h'.symm hc
      · have h2 := ih h'
        cases hs : splitCols rest with
        | nil => exact absurd hs (splitCols_ne_nil rest)
        | cons p ps =>
          simp only [List.headD_cons, List.tail_cons, List.length_cons]
          rw [hs, List.length_cons] at h2
          omega

theorem getLastD_splitCols_append (l1 l2 : List Char) :
    (splitCols (l1 ++ ':' :: l2)).getLastD [] =
      (splitCols l2).getLastD [] := by
  induction l1 with
  | nil =>
    simp only [List.nil_append, splitCols, if_pos rfl, if_true, List.getLastD_cons]
  | cons c l1 ih =>
    rw [List.cons_append]
    simp only [splitCols]
    cases h : splitCols (l1 ++ ':' :: l2) with
    | nil => exact absurd h (splitCols_ne_nil _)
    | cons p ps =>
      by_cases hc : c = ':'
      · rw [if_pos hc, List.getLastD_cons, ← ih, h, List.getLastD_cons]
      · rw [if_neg hc, List.headD_cons, List.tail_cons, List.getLastD_cons]
        have hps : ps ≠ [] := by
          have h2 : 2 ≤ (splitCols (l1 ++ ':' :: l2)).length :=
            splitCols_two_of_colon _ (by simp)
          rw [h] at h2
          simp only [List.length_cons] at h2
          intro hnil
          rw [hnil] at h2
          simp at h2
        rw [← ih, h, List.getLastD_cons,
          getLastD_tail ps (c :: p) p hps]

/-- Decimal facts about unpadded hour renderings, `h < 24`. -/
theorem natToDigits_hour_facts : ∀ h : ℕ, h < 24 →
    (':' ∉ natToDigits h) ∧ parseDigits (natToDigits h) = h ∧
    ((natToDigits h).length = 1 ∨
      ((natToDigits h).length = 2 ∧ (natToDigits h).headD '0' ≠ '0')) ∧
    (natToDigits h).all Char.isDigit = true := by
  decide

/-- Decimal facts about two-digit zero-padded renderings, `m < 60`. -/
theorem pad2_facts : ∀ m : ℕ, m < 60 →
    (':' ∉ pad2 m) ∧ parseDigits (pad2 m) = m ∧
    (pad2 m).length = 2 ∧ (pad2 m).all Char.isDigit = true := by
  decide

/-- The last colon-separated field of any prefix followed by an `H:MM:SS`
rendering is the zero-padded seconds field. -/
theorem lastField_append_hms (P : List Char) (m : ℕ) :
    (splitCols (P ++ hmsChars m)).getLastD [] = pad2 (m % 60) := by
  rw [hmsChars, ← List.append_assoc, getLastD_splitCols_append,
    getLastD_splitCols_append,
    splitCols_no_colon _ (pad2_facts (m % 60) (Nat.mod_lt _ (by norm_num))).1,
    List.getLastD_cons]
  rfl

theorem hmsChars_split (m : ℕ) (hm : m < 86400) :
    splitCols (hmsChars m) =
      [natToDigits (m / 3600), pad2 (m / 60 % 60), pad2 (m % 60)] := by
  have hh : m / 3600 < 24 := Nat.div_lt_of_lt_mul (by omega)
  have h1 := (natToDigits_hour_facts _ hh).1
  have h2 := (pad2_facts (m / 60 % 60) (Nat.mod_lt _ (by norm_num))).1
  have h3 := (pad2_facts (m % 60) (Nat.mod_lt _ (by norm_num))).1
  rw [hmsChars, splitCols_append _ _ h1, splitCols_append _ _ h2,
    splitCols_no_colon _ h3]

/-- The last colon-separated field of `str(timedelta(seconds=m))` is always
the zero-padded seconds-within-minute field. -/
theorem lastField_timedeltaNat (m : ℕ) :
    (splitCols (timedeltaNat m)).getLastD [] = pad2 (m % 60) := by
  have hdvd : m % 86400 % 60 = m % 60 :=
    Nat.mod_mod_of_dvd m (by norm_num)
  rw [timedeltaNat]
  by_cases hd : m / 86400 = 0
  · rw [if_pos hd]
    have := lastField_append_hms [] (m % 86400)
    rw [List.nil_append] at this
    rw [this, hdvd]
  · rw [if_neg hd, lastField_append_hms, hdvd]

theorem pythonRound_nonneg (q : ℚ) (h : 0 ≤ q) : 0 ≤ pythonRound q := by
  have hf : (0 : ℤ) ≤ ⌊q⌋ := Int.floor_nonneg.mpr h
  simp only [pythonRound]
  split_ifs <;> omega

theorem parseHMS_parts (s : String) (h m sec : List Char)
    (hs : splitCols s.data = [h, m, sec]) :
    parseHMS s = 3600 * parseDigits h + 60 * parseDigits m + parseDigits sec := by
  unfold parseHMS
  rw [hs]

theorem isHMSshape_parts (s : String) (h m sec : List Char)
    (hs : splitCols s.data = [h, m, sec]) :
    isHMSshape s = ((h.length = 1 || (h.length = 2 && h.headD '0' ≠ '0')) &&
      h.all Char.isDigit && m.length = 2 && m.all Char.isDigit &&
      sec.length = 2 && sec.all Char.isDigit) := by
  unfold isHMSshape
  rw [hs]

/-- The last-field parse of a formatted timestamp for non-negative seconds:
always the rounded value reduced modulo 60. -/
theorem pyFloatLastColon_format (q : ℚ) (h : 0 ≤ q) :
    pyFloatLastColon (format_timestamp q)
      = (((pythonRound q).toNat % 60 : ℕ) : ℚ) := by
  have hn := pythonRound_nonneg q h
  have hdata : (format_timestamp q).data
      = timedeltaNat (pythonRound q).toNat := by
    show timedeltaChars (pythonRound q) = _
    simp only [timedeltaChars]
    rw [if_pos hn]
  rw [pyFloatLastColon, hdata, lastField_timedeltaNat,
    (pad2_facts _ (Nat.mod_lt _ (by norm_num))).2.1]

/-- Claim C10: in `transcribe.py`, the start and end endpoints compared
against turns during speaker matching are obtained by parsing only the last
colon-separated field of the already formatted timestamp strings, so each
equals `round(seconds) % 60` and always lies in `[0, 60)`, regardless of the
segment's true position in the audio. -/
theorem matching_endpoints_mod60 (segment : Segment)
    (h1 : 0 ≤ segment.start) (h2 : 0 ≤ segment.«end») :
    (segmentStartTime (tRecordOfSegment segment)
        = (((pythonRound segment.start).toNat % 60 : ℕ) : ℚ) ∧
      0 ≤ segmentStartTime (tRecordOfSegment segment) ∧
      segmentStartTime (tRecordOfSegment segment) < 60) ∧
    (segmentEndTime (tRecordOfSegment segment)
        = (((pythonRound segment.«end»).toNat % 60 : ℕ) : ℚ) ∧
      0 ≤ segmentEndTime (tRecordOfSegment segment) ∧
      segmentEndTime (tRecordOfSegment segment) < 60) := by
  have hs : segmentStartTime (tRecordOfSegment segment)
      = pyFloatLastColon (format_timestamp segment.start) := rfl
  have he : segmentEndTime (tRecordOfSegment segment)
      = pyFloatLastColon (format_timestamp segment.«end») := rfl
  rw [hs, he, pyFloatLastColon_format _ h1, pyFloatLastColon_format _ h2]
  have hb1 : (pythonRound segment.start).toNat % 60 < 60 :=
    Nat.mod_lt _ (by norm_num)
  have hb2 : (pythonRound segment.«end»).toNat % 60 < 60 :=
    Nat.mod_lt _ (by norm_num)
  refine ⟨⟨rfl, by positivity, ?_⟩, ⟨rfl, by positivity, ?_⟩⟩ <;>
    exact_mod_cast ‹_ < 60›

/-- Claim C10 witness: the segment `[3661, 7325]` — one hour in — is compared
against turns through the window `[1, 5)`-style seconds-only values. -/
theorem matching_endpoints_mod60_witness :
    (0 : ℚ) ≤ (Segment.mk 3661 7325 "w").start ∧
    (0 : ℚ) ≤ (Segment.mk 3661 7325 "w").«end» ∧
    ((segmentStartTime (tRecordOfSegment (Segment.mk 3661 7325 "w"))
        = (((pythonRound (Segment.mk 3661 7325 "w").start).toNat % 60 : ℕ) : ℚ) ∧
      0 ≤ segmentStartTime (tRecordOfSegment (Segment.mk 3661 7325 "w")) ∧
      segmentStartTime (tRecordOfSegment (Segment.mk 3661 7325 "w")) < 60) ∧
    (segmentEndTime (tRecordOfSegment (Segment.mk 3661 7325 "w"))
        = (((pythonRound (Segment.mk 3661 7325 "w").«end»).toNat % 60 : ℕ) : ℚ) ∧
      0 ≤ segmentEndTime (tRecordOfSegment (Segment.mk 3661 7325 "w")) ∧
      segmentEndTime (tRecordOfSegment (Segment.mk 3661 7325 "w")) < 60)) :=
  ⟨by norm_num, by norm_num,
    matching_endpoints_mod60 (Segment.mk 3661 7325 "w")
      (by norm_num) (by norm_num)⟩

/-- Claim C7 counterexample: at `seconds = 86400` (a non-negative input) the
rendering is `"1 day, 0:00:00"`, which matches neither `H:MM:SS` nor
`HH:MM:SS`: the fixed duration format claimed for all `seconds ≥ 0` fails at
one day and beyond. -/
theorem format_timestamp_day_counterexample :
    ((0 : ℚ) ≤ 86400) ∧
    format_timestamp 86400 = "1 day, 0:00:00" ∧
    isHMSshape "1 day, 0:00:00" = false := by
  refine ⟨by norm_num, ?_, by decide⟩
  norm_num [format_timestamp, pythonRound]
  decide

/-- Claim C7 (amended): for every `seconds ≥ 0` whose half-even rounding is
below one day, `format_timestamp` returns (totally) the rounded value
rendered as `H:MM:SS`: an unpadded one- or two-digit hour with no leading
zero and two-digit zero-padded minutes and seconds; re-parsing the three
fields recovers exactly the rounded value. From one day upward the rendering
instead gains a day prefix (see the counterexample). -/
theorem format_timestamp_hms (q : ℚ) (h0 : 0 ≤ q)
    (hlt : pythonRound q < 86400) :
    isHMSshape (format_timestamp q) = true ∧
    parseHMS (format_timestamp q) = (pythonRound q).toNat := by
  have hn := pythonRound_nonneg q h0
  have hn86 : (pythonRound q).toNat < 86400 := by omega
  have hh : (pythonRound q).toNat / 3600 < 24 :=
    Nat.div_lt_of_lt_mul (by omega)
  have hdata : (format_timestamp q).data
      = timedeltaNat (pythonRound q).toNat := by
    show timedeltaChars (pythonRound q) = _
    simp only [timedeltaChars]
    rw [if_pos hn]
  have htd : timedeltaNat (pythonRound q).toNat
      = hmsChars (pythonRound q).toNat := by
    simp only [timedeltaNat]
    rw [if_pos (Nat.div_eq_of_lt hn86), Nat.mod_eq_of_lt hn86]
  have hsd : splitCols (format_timestamp q).data
      = [natToDigits ((pythonRound q).toNat / 3600),
         pad2 ((pythonRound q).toNat / 60 % 60),
         pad2 ((pythonRound q).toNat % 60)] := by
    rw [hdata, htd]
    exact hmsChars_split _ hn86
  obtain ⟨-, hhparse, hhshape, hhdig⟩ := natToDigits_hour_facts _ hh
  obtain ⟨-, hmparse, hm2, hmdig⟩ :=
    pad2_facts ((pythonRound q).toNat / 60 % 60) (Nat.mod_lt _ (by norm_num))
  obtain ⟨-, hsparse, hs2, hsdig⟩ :=
    pad2_facts ((pythonRound q).toNat % 60) (Nat.mod_lt _ (by norm_num))
  constructor
  · rw [isHMSshape_parts _ _ _ _ hsd]
    simp only [Bool.and_eq_true, Bool.or_eq_true, decide_eq_true_eq]
    refine ⟨⟨⟨⟨⟨?_, hhdig⟩, hm2⟩, hmdig⟩, hs2⟩, hsdig⟩
    rcases hhshape with h1 | ⟨h2a, h2b⟩
    · exact Or.inl h1
    · exact Or.inr ⟨h2a, h2b⟩
  · rw [parseHMS_parts _ _ _ _ hsd, hhparse, hmparse, hsparse]
    omega

/-- Claim C7 witness at `seconds = 3661`: rendered `"1:01:01"`, a well-shaped
`H:MM:SS` that parses back to `3661`. -/
theorem format_timestamp_hms_witness :
    ((0 : ℚ) ≤ 3661) ∧ pythonRound 3661 < 86400 ∧
    (isHMSshape (format_timestamp 3661) = true ∧
      parseHMS (format_timestamp 3661) = (pythonRound 3661).toNat) := by
  refine ⟨by norm_num, by norm_num [pythonRound],
    format_timestamp_hms 3661 (by norm_num) (by norm_num [pythonRound])⟩

/-! ### Idempotency of the `transcribe_with_speakers.py` batch -/

theorem takeWhile_all_stop {α : Type} (p : α → Bool) :
    ∀ (xs : List α) (y : α) (ys : List α),
      (∀ x ∈ xs, p x = true) → p y = false →
      List.takeWhile p (xs ++ y :: ys) = xs := by
  intro xs
  induction xs with
  | nil =>
    intro y ys _ hy
    simp [List.takeWhile_cons, hy]
  | cons x xs ih =>
    intro y ys hall hy
    rw [List.cons_append, List.takeWhile_cons,
      hall x (List.mem_cons_self _ _), ih y ys
        (fun z hz => hall z (List.mem_cons_of_mem _ hz)) hy]
    simp

theorem basename_pathJoin (d f : String) (hf : ('/' : Char) ∉ f.data) :
    basename (pathJoin d f) = f := by
  have hdata : (pathJoin d f).data = d.data ++ '/' :: f.data := by
    simp [pathJoin, String.data_append]
  rw [basename, hdata, List.reverse_append, List.reverse_cons,
    List.append_assoc, List.singleton_append]
  rw [takeWhile_all_stop _ f.data.reverse '/' (d.data.reverse)
    (fun x hx => by
      simp only [decide_eq_true_eq]
      intro hx'
      exact hf (hx' ▸ List.mem_reverse.mp hx)) (by simp)]
  rw [List.reverse_reverse]

theorem fsExists_write_self (fs : Fs) (p c : String) :
    fsExists (fsWrite fs p c) p = true := by
  simp [fsExists, fsWrite, List.lookup]

theorem fsExists_write_mono (fs : Fs) (p c q : String)
    (h : fsExists fs q = true) : fsExists (fsWrite fs p c) q = true := by
  simp only [fsExists, fsWrite, List.lookup] at h ⊢
  split <;> simp [h]

theorem tws_step_skip (asr : String → Except String (List Segment))
    (diar : String → Except String (List Turn))
    (input output : String) (wd : Bool) (st : Fs × ℕ) (f : String)
    (h : fsExists st.1 (expectedArtifact output wd (splitextBase f)) = true) :
    tws_step asr diar input output wd st f = .ok st := by
  simp [tws_step, h, pure, Except.pure]

theorem tws_step_total (asr : String → List Segment) (diar : String → List Turn)
    (input output : String) (wd : Bool) (st : Fs × ℕ) (f : String)
    (hf : ('/' : Char) ∉ f.data) :
    ∃ st' : Fs × ℕ,
      tws_step (fun p => .ok (asr p)) (fun p => .ok (diar p))
          input output wd st f = .ok st' ∧
      (∀ p, fsExists st.1 p = true → fsExists st'.1 p = true) ∧
      fsExists st'.1 (expectedArtifact output wd (splitextBase f)) = true := by
  by_cases hex : fsExists st.1 (expectedArtifact output wd (splitextBase f)) = true
  · exact ⟨st, tws_step_skip _ _ _ _ _ _ _ hex, fun p hp => hp, hex⟩
  · cases wd with
    | false =>
      refine ⟨(fsWrite st.1 (expectedArtifact output false (splitextBase f))
          (encodeRecords ((asr (pathJoin input f)).map simpleRecord)),
          st.2 + 1), ?_, ?_, ?_⟩
      · simp [tws_step, hex, transcribe_audio_tws, basename_pathJoin input f hf]
        try rfl
      · intro p hp
        exact fsExists_write_mono _ _ _ _ hp
      · exact fsExists_write_self _ _ _
    | true =>
      refine ⟨(fsWrite st.1 (expectedArtifact output true (splitextBase f))
          (encodeRecords (mergeTranscript (asr (pathJoin input f))
            (diar (pathJoin input f)))),
          st.2 + 2), ?_, ?_, ?_⟩
      · simp [tws_step, hex, transcribe_audio_tws, basename_pathJoin input f hf]
        try rfl
      · intro p hp
        exact fsExists_write_mono _ _ _ _ hp
      · exact fsExists_write_self _ _ _

theorem tws_fold_total (asr : String → List Segment) (diar : String → List Turn)
    (input output : String) (wd : Bool) :
    ∀ (files : List String) (st : Fs × ℕ),
      (∀ f ∈ files, ('/' : Char) ∉ f.data) →
      ∃ st' : Fs × ℕ,
        List.foldlM (tws_step (fun p => .ok (asr p)) (fun p => .ok (diar p))
            input output wd) st files = .ok st' ∧
        (∀ p, fsExists st.1 p = true → fsExists st'.1 p = true) ∧
        (∀ f ∈ files,
          fsExists st'.1 (expectedArtifact output wd (splitextBase f)) = true) := by
  intro files
  induction files with
  | nil =>
    intro st _
    exact ⟨st, rfl, fun p hp => hp, by simp⟩
  | cons f fs ih =>
    intro st hall
    obtain ⟨st1, hstep, hmono1, hart1⟩ :=
      tws_step_total asr diar input output wd st f
        (hall f (List.mem_cons_self _ _))
    obtain ⟨st', hrest, hmono2, hart2⟩ :=
      ih st1 (fun g hg => hall g (List.mem_cons_of_mem _ hg))
    refine ⟨st', ?_, fun p hp => hmono2 p (hmono1 p hp), ?_⟩
    · rw [List.foldlM_cons, hstep]
      simpa using hrest
    · intro g hg
      rcases List.mem_cons.mp hg with rfl | hg
      · exact hmono2 _ hart1
      · exact hart2 g hg

theorem tws_fold_skip (asr : String → Except String (List Segment))
    (diar : String → Except String (List Turn))
    (input output : String) (wd : Bool) :
    ∀ (files : List String) (st : Fs × ℕ),
      (∀ f ∈ files,
        fsExists st.1 (expectedArtifact output wd (splitextBase f)) = true) →
      List.foldlM (tws_step asr diar input output wd) st files = .ok st := by
  intro files
  induction files with
  | nil => intro st _; rfl
  | cons f fs ih =>
    intro st hall
    rw [List.foldlM_cons, tws_step_skip asr diar input output wd st f
      (hall f (List.mem_cons_self _ _))]
    simpa using ih st (fun g hg => hall g (List.mem_cons_of_mem _ hg))

/-- The batch of `transcribe_with_speakers.py` is idempotent for
slash-free listing entries and infallible collaborators: a second run over
the same inputs and mode leaves the filesystem exactly as the first run left
it and performs zero collaborator invocations — the behavior claim C3
describes, implemented correctly in this variant (unlike `transcribe.py`). -/
theorem tws_idempotent (asr : String → List Segment)
    (diar : String → List Turn) (input output : String) (wd : Bool)
    (files : List String) (hs : ∀ f ∈ files, ('/' : Char) ∉ f.data)
    (fs0 fs1 : Fs) (n : ℕ)
    (h : process_audio_folder_tws (fun p => .ok (asr p)) (fun p => .ok (diar p))
        input output wd files fs0 = .ok (fs1, n)) :
    process_audio_folder_tws (fun p => .ok (asr p)) (fun p => .ok (diar p))
      input output wd files fs1 = .ok (fs1, 0) := by
  obtain ⟨st', hrun, hmono, hall⟩ :=
    tws_fold_total asr diar input output wd files (fs0, 0) hs
  rw [process_audio_folder_tws, hrun] at h
  injection h with h
  subst h
  rw [process_audio_folder_tws]
  exact tws_fold_skip _ _ _ _ _ files (fs1, 0) (fun f hf => hall f hf)

end PodcastRag
